import Mathlib

/-!
Verification development for the iteratez iteration engine
(src/unnamed/part_002 = src/Iterate.ts of the current revision,
src/src/Iterate.ts = an earlier revision, src functions.ts, IterateAction.ts).

Modelling conventions (shallow embedding):
* JS closures capturing a mutable backing source become explicit state
  passing: the backing source is the value of type S threaded through
  every traversal (`each`).  The JS class field mutation protocol
  (act / stop / remove / replace) is modelled by having each callback
  return the action it set on the cursor together with the value passed
  to replace, exactly the information `Iterate.act` reads back.
* JS numbers are modelled as Int.  Reference identity (===) on the
  primitive values used by the claims coincides with value equality,
  modelled through DecidableEq.
* The optional key arguments of IterateEquals / IterateCompare are not
  used in a key-sensitive way by any code path a claim exercises, so
  equality and comparison functions are modelled on values only.
* `defaultCompare` is referenced by the current getComparator and
  getEquality but its definition is not part of the source snapshot;
  it is therefore threaded as an explicit parameter (dflt below), and
  every theorem touching it either quantifies over it or holds for an
  arbitrary concrete instantiation.
* `onReset` / `reset` support is not modelled (no claim exercises it).
-/

namespace Iteratez

/-- Action protocol of IterateAction.ts: the four-valued enumeration
exchanged per element between a traversal driver and a consumer. -/
inductive IterateAction : Type
| CONTINUE
| STOP
| REMOVE
| REPLACE
deriving DecidableEq, Repr

/-- Result of offering one element to the consumer callback via act:
the updated callback state, the action the callback set on the cursor
(CONTINUE when it set none, since act resets the action first), and the
value passed to replace (reset to null by act, hence an Option). -/
structure ActOut (σ T : Type) : Type where
  state : σ
  action : IterateAction
  replaceWith : Option T
deriving Repr

/-- Consumer callback, as invoked by act: receives the value, the key
and its own (explicit) state. -/
def CbFn (T K σ : Type) : Type := T → K → σ → ActOut σ T

/-- Result of one each run: final callback state, final backing source,
and the action left on the cursor after the run. -/
structure EachOut (σ S : Type) : Type where
  state : σ
  src : S
  action : IterateAction
deriving Repr

/-- Source adapter contract: drives the whole traversal for an
arbitrary callback-state type. -/
def EachFn (T K S : Type) : Type 1 :=
  (σ : Type) → CbFn T K σ → σ → S → EachOut σ S

/-- Equality logic (IterateEquals with the optional key arguments
omitted, see the file header). -/
def EqFn (T : Type) : Type := T → T → Bool

/-- Comparison logic (IterateCompare with the optional key arguments
omitted). -/
def CmpFn (T : Type) : Type := T → T → Int

/-- The Iterate cursor: its source adapter closure plus the equality
and comparator configuration.  The constructor of the source copies
the parent configuration when a parent is supplied. -/
structure Iterate (T K S : Type) : Type 1 where
  source : EachFn T K S
  equality : Option (EqFn T) := none
  comparator : Option (CmpFn T) := none

/-- Models Iterate.each: installs the callback, runs the source
adapter, returns state, mutated source and the final action. -/
def Iterate.each (p : Iterate T K S) (cb : CbFn T K σ) (s : σ) (st : S) :
    EachOut σ S :=
  p.source σ cb s st

/-- Traversal loop of the static Iterate.array adapter: act on each
element with its index; STOP returns leaving the rest intact; REMOVE
splices the element out and revisits the same index (splice plus index
decrement); REPLACE splices the replacement in place.  The last
argument threads the action currently on the cursor so the final
action of the run is the one left by the last act. -/
def arrayGo (cb : CbFn T Nat σ) :
    List T → Nat → σ → IterateAction → EachOut σ (List T)
| [], _, s, a => ⟨s, [], a⟩
| v :: rest, i, s, _ =>
  match cb v i s with
  | ⟨s1, IterateAction.STOP, _⟩ => ⟨s1, v :: rest, IterateAction.STOP⟩
  | ⟨s1, IterateAction.REMOVE, _⟩ => arrayGo cb rest i s1 IterateAction.REMOVE
  | ⟨s1, IterateAction.REPLACE, rw⟩ =>
    match arrayGo cb rest (i + 1) s1 IterateAction.REPLACE with
    | ⟨s2, out, a2⟩ => ⟨s2, rw.getD v :: out, a2⟩
  | ⟨s1, IterateAction.CONTINUE, _⟩ =>
    match arrayGo cb rest (i + 1) s1 IterateAction.CONTINUE with
    | ⟨s2, out, a2⟩ => ⟨s2, v :: out, a2⟩

/-- Models the static Iterate.array: a cursor over a backing array
(the array itself is the threaded source state). -/
def Iterate.array : Iterate T Nat (List T) :=
  { source := fun _ cb s l => arrayGo cb l 0 s IterateAction.CONTINUE }

/-- Models the static Iterate.empty: a source that does nothing. -/
def Iterate.empty : Iterate T K S :=
  { source := fun _ _ s st => ⟨s, st, IterateAction.CONTINUE⟩ }

/-- Data for Iterate.view: per-traversal data, the filter decision,
and the two optional hooks.  The hooks return the updated data and
optionally an action to impose on the parent cursor (modelling hook
bodies that call stop or similar on the iterator they receive). -/
structure ViewSpec (D T K : Type) : Type where
  getData : D
  shouldAct : D → T → K → Bool
  afterAct : Option (D → T → K → D × Option IterateAction) := none
  afterSkip : Option (D → T → K → D × Option IterateAction) := none

/-- Models Iterate.view: the derived cursor drives the parent with a
wrapped callback; when the element passes, the downstream action is
translated one to one onto the parent (STOP, REMOVE and REPLACE each
map to the same call on the parent, CONTINUE leaves the parent action
as reset by act); the hooks may update the data and override the
parent action.  The wrapped state also tracks the last action acted on
the derived cursor, which becomes the final action of its run.  The
derived cursor inherits the parent configuration (the view source
passes this as the parent).  The wrapped callback is factored out as
viewStep. -/
def viewStep (vs : ViewSpec D T K) (cb : CbFn T K σ) :
    CbFn T K (D × σ × IterateAction) := fun v k dsa =>
  if vs.shouldAct dsa.1 v k then
    match cb v k dsa.2.1 with
    | ⟨s1, a1, rw⟩ =>
      match vs.afterAct with
      | none => ⟨(dsa.1, s1, a1), a1, rw⟩
      | some f =>
        match f dsa.1 v k with
        | (d1, ov) => ⟨(d1, s1, a1), ov.getD a1, rw⟩
  else
    match vs.afterSkip with
    | none => ⟨(dsa.1, dsa.2.1, dsa.2.2), IterateAction.CONTINUE, none⟩
    | some f =>
      match f dsa.1 v k with
      | (d1, ov) => ⟨(d1, dsa.2.1, dsa.2.2), ov.getD IterateAction.CONTINUE, none⟩

/-- Models Iterate.view, continued: the derived cursor runs the parent
on the wrapped callback and reports the data-stripped state and the
tracked action of its own acts. -/
def Iterate.view (p : Iterate T K S) (vs : ViewSpec D T K) : Iterate T K S :=
  { source := fun _ cb s st =>
      match p.each (viewStep vs cb) (vs.getData, s, IterateAction.CONTINUE) st with
      | ⟨(_, s2, a2), st2, _⟩ => ⟨s2, st2, a2⟩
    equality := p.equality
    comparator := p.comparator }

/-- Models Iterate.where: forward the element iff the filter holds. -/
def Iterate.where (p : Iterate T K S) (w : T → K → Bool) : Iterate T K S :=
  p.view { getData := (), shouldAct := fun _ v k => w v k }

/-- Models Iterate.not: forward the element iff the filter fails. -/
def Iterate.not (p : Iterate T K S) (w : T → K → Bool) : Iterate T K S :=
  p.view { getData := (), shouldAct := fun _ v k => !(w v k) }

/-- Models Iterate.take: amounts at most zero give the empty iterator;
otherwise forward while the countdown is positive, decrement per
forwarded element, and stop the parent on the first skipped one. -/
def Iterate.take (p : Iterate T K S) (amount : Int) : Iterate T K S :=
  if amount ≤ 0 then Iterate.empty else
  p.view { getData := amount
           shouldAct := fun d _ _ => 0 < d
           afterAct := some fun d _ _ => (d - 1, none)
           afterSkip := some fun d _ _ => (d, some IterateAction.STOP) }

/-- Models Iterate.skip: forward once the running counter has reached
the requested amount, incrementing it on both branches. -/
def Iterate.skip (p : Iterate T K S) (amount : Int) : Iterate T K S :=
  p.view { getData := (0 : Int)
           shouldAct := fun d _ _ => amount ≤ d
           afterAct := some fun d _ _ => (d + 1, none)
           afterSkip := some fun d _ _ => (d + 1, none) }

/-- Models the mutation Iterate.delete: each with a callback that
requests remove for every value; the result is the mutated source. -/
def Iterate.delete (p : Iterate T K S) (st : S) : S :=
  (p.each (fun _ _ _ => ⟨(), IterateAction.REMOVE, none⟩) () st).src

/-- Models the operation array (building a list of the values seen by
one traversal). -/
def Iterate.toArray (p : Iterate T K S) (st : S) : List T :=
  (p.each (fun v _ acc => ⟨acc ++ [v], IterateAction.CONTINUE, none⟩) [] st).state

/-- Models the operation entries (building a list of key value pairs
seen by one traversal). -/
def Iterate.entriesOp (p : Iterate T K S) (st : S) : List (K × T) :=
  (p.each (fun v k acc => ⟨acc ++ [(k, v)], IterateAction.CONTINUE, none⟩) [] st).state

/-- Models the operation has: stop on the first value and report
whether the traversal was stopped. -/
def Iterate.has (p : Iterate T K S) (st : S) : Bool :=
  decide ((p.each (fun _ _ _ => ⟨(), IterateAction.STOP, none⟩) () st).action
    = IterateAction.STOP)

/-- Models the compare helper of functions.ts: values failing the type
predicate are mutually equal and ordered before or after all valid
values per nullsFirst; valid values use the domain comparator,
argument swapped when descending. -/
def compare (ascending nullsFirst : Bool) (correctType : α → Bool)
    (comparator : α → α → Int) (a b : α) : Int :=
  let typeA := !correctType a
  let typeB := !correctType b
  if typeA ≠ typeB then
    (if (if nullsFirst then typeA else typeB) then -1 else 1)
  else if typeA then 0
  else if ascending then comparator a b else comparator b a

/-- Models getNumberComparator of functions.ts at the Int model of JS
numbers: the finite-number type predicate holds for every modelled
value, and the domain comparator is subtraction. -/
def getNumberComparator (ascending nullsFirst : Bool) : CmpFn Int :=
  fun a b => compare ascending nullsFirst (fun _ => true) (fun a b => a - b) a b

/-- Models Iterate.withEquality: sets the equality logic. -/
def Iterate.withEquality (p : Iterate T K S) (eq : EqFn T) : Iterate T K S :=
  { p with equality := some eq }

/-- Models Iterate.withComparator: sets the comparator and, when no
equality is present, derives the equality from it. -/
def Iterate.withComparator (p : Iterate T K S) (cmp : CmpFn T) : Iterate T K S :=
  { p with comparator := some cmp
           equality := some (p.equality.getD (fun a b => decide (cmp a b = 0))) }

/-- Models the private Iterate.withLogic: sets the comparator and the
given equality, deriving the equality from the comparator when the
equality argument is absent. -/
def Iterate.withLogic (p : Iterate T K S) (cmp : CmpFn T) (eq : Option (EqFn T)) :
    Iterate T K S :=
  { p with comparator := some cmp
           equality := some (eq.getD (fun a b => decide (cmp a b = 0))) }

/-- Models Iterate.numbers for the Int model of JS numbers. -/
def Iterate.numbers (p : Iterate Int K S) (ascending nullsFirst : Bool) :
    Iterate Int K S :=
  p.withLogic (getNumberComparator ascending nullsFirst) none

/-- Models getEquality of the current revision: the override, else the
configured equality, else the default equality built from
defaultCompare (threaded as the dfltEq parameter, see the header). -/
def Iterate.getEquality (p : Iterate T K S) (dfltEq : EqFn T)
    (ovr : Option (EqFn T)) : EqFn T :=
  ovr.getD (p.equality.getD dfltEq)

/-- Models getComparator of the current revision
(src/unnamed/part_002): the override, else the configured comparator,
else the comparator built from defaultCompare (threaded as the dflt
parameter); no error path exists. -/
def Iterate.getComparator (p : Iterate T K S) (dflt : CmpFn T)
    (ovr : Option (CmpFn T)) : CmpFn T :=
  ovr.getD (p.comparator.getD dflt)

/-- Models getComparator of the earlier revision (src/src/Iterate.ts):
the override, else the configured comparator, else a thrown
configuration error. -/
def getComparatorV1 (comparatorOverride configured : Option (CmpFn T)) :
    Except String (CmpFn T) :=
  match comparatorOverride with
  | some c => Except.ok c
  | none =>
    match configured with
    | some c => Except.ok c
    | none => Except.error "A comparator is required for the requested action"

/-- Models Iterate.gt: forward values comparing greater than the
threshold under the resolved comparator. -/
def Iterate.gt (p : Iterate T K S) (dflt : CmpFn T) (threshold : T)
    (cmpOvr : Option (CmpFn T)) : Iterate T K S :=
  p.view { getData := p.getComparator dflt cmpOvr
           shouldAct := fun cmp v _ => decide (0 < cmp v threshold) }

/-- Models Iterate.gte. -/
def Iterate.gte (p : Iterate T K S) (dflt : CmpFn T) (threshold : T)
    (cmpOvr : Option (CmpFn T)) : Iterate T K S :=
  p.view { getData := p.getComparator dflt cmpOvr
           shouldAct := fun cmp v _ => decide (0 ≤ cmp v threshold) }

/-- Models Iterate.lt. -/
def Iterate.lt (p : Iterate T K S) (dflt : CmpFn T) (threshold : T)
    (cmpOvr : Option (CmpFn T)) : Iterate T K S :=
  p.view { getData := p.getComparator dflt cmpOvr
           shouldAct := fun cmp v _ => decide (cmp v threshold < 0) }

/-- Models Iterate.lte. -/
def Iterate.lte (p : Iterate T K S) (dflt : CmpFn T) (threshold : T)
    (cmpOvr : Option (CmpFn T)) : Iterate T K S :=
  p.view { getData := p.getComparator dflt cmpOvr
           shouldAct := fun cmp v _ => decide (cmp v threshold ≤ 0) }

/-- Models Iterate.contains: has on the where view selecting values
equal to the searched one under the resolved equality. -/
def Iterate.contains (p : Iterate T K S) (dfltEq : EqFn T) (value : T)
    (st : S) : Bool :=
  let eq := p.getEquality dfltEq none
  (p.where (fun other _ => eq other value)).has st

/-- Models Iterate.exclude: the view data is the other source; the
element passes iff the side cursor over the other source (carrying the
resolved equality) does not contain it.  The side cursor is an
immutable value in this model, so rebuilding it at each membership
test is observationally the per-traversal construction the source
performs in getData. -/
def Iterate.exclude (p : Iterate T K S) (dfltEq : EqFn T) (other : List T)
    (eqOvr : Option (EqFn T)) : Iterate T K S :=
  p.view { getData := other
           shouldAct := fun lst v _ =>
             !((Iterate.array.withEquality (p.getEquality dfltEq eqOvr)).contains
                 dfltEq v lst) }

/-- Models Iterate.intersect: as exclude with the membership test not
negated. -/
def Iterate.intersect (p : Iterate T K S) (dfltEq : EqFn T) (other : List T)
    (eqOvr : Option (EqFn T)) : Iterate T K S :=
  p.view { getData := other
           shouldAct := fun lst v _ =>
             (Iterate.array.withEquality (p.getEquality dfltEq eqOvr)).contains
               dfltEq v lst }

/-- Models Iterate.unique: the view data buffers the seen key value
pairs; an element passes iff no buffered pair is equal to it, and a
passing element is appended to the buffer. -/
def Iterate.unique (p : Iterate T K S) (dfltEq : EqFn T)
    (eqOvr : Option (EqFn T)) : Iterate T K S :=
  p.view { getData := (([] : List (K × T)), p.getEquality dfltEq eqOvr)
           shouldAct := fun d v _ => !(d.1.any (fun e => d.2 e.2 v))
           afterAct := some fun d v k => ((d.1 ++ [(k, v)], d.2), none) }

/-- Sets the forwarded-once flag of the first buffered entry equal to
the given value (findIndex followed by a flag write in the source). -/
def markSeen (eq : EqFn T) (v : T) :
    List ((K × T) × Bool) → List ((K × T) × Bool)
| [] => []
| e :: rest => if eq e.1.2 v then (e.1, true) :: rest else e :: markSeen eq v rest

/-- Models Iterate.duplicates: the buffer stores seen pairs with their
forwarded-once flag.  An occurrence passes iff an equal pair was seen
before and, when onlyOnce, its flag is still unset; the source updates
the buffer inside its decision function, decomposed here into the act
and skip hooks performing exactly the same updates per branch. -/
def Iterate.duplicates (p : Iterate T K S) (dfltEq : EqFn T)
    (onlyOnce : Bool) (eqOvr : Option (EqFn T)) : Iterate T K S :=
  p.view { getData := (([] : List ((K × T) × Bool)), p.getEquality dfltEq eqOvr)
           shouldAct := fun d v _ =>
             match d.1.find? (fun e => d.2 e.1.2 v) with
             | some e => !(e.2 && onlyOnce)
             | none => false
           afterAct := some fun d v _ => ((markSeen d.2 v d.1, d.2), none)
           afterSkip := some fun d v k =>
             ((if d.1.any (fun e => d.2 e.1.2 v)
               then markSeen d.2 v d.1
               else d.1 ++ [((k, v), false)], d.2), none) }

/-- Models Iterate.readonly: forward every element but discard every
downstream action except STOP. -/
def Iterate.readonly (p : Iterate T K S) : Iterate T K S :=
  { source := fun σ cb s st =>
      let step : CbFn T K (σ × IterateAction) := fun v k sa =>
        match cb v k sa.1 with
        | ⟨s1, a1, _⟩ =>
          ⟨(s1, a1),
            if a1 = IterateAction.STOP then IterateAction.STOP
            else IterateAction.CONTINUE,
            none⟩
      match p.each step (s, IterateAction.CONTINUE) st with
      | ⟨(s2, a2), st2, _⟩ => ⟨s2, st2, a2⟩
    equality := p.equality
    comparator := p.comparator }

/-- Models Iterate.values of the current revision.  The source
declares the index counter inside the per element callback (let index
followed by next.act(value, index) and a post increment), so the
counter restarts at zero for every element and each one is offered
with key 0; STOP, REMOVE and REPLACE all forward to the parent.  The
derived cursor inherits the parent configuration. -/
def Iterate.values (p : Iterate T K S) : Iterate T Nat S :=
  { source := fun σ cb s st =>
      let step : CbFn T K (σ × IterateAction) := fun v _ sa =>
        match cb v 0 sa.1 with
        | ⟨s1, a1, rw⟩ => ⟨(s1, a1), a1, rw⟩
      match p.each step (s, IterateAction.CONTINUE) st with
      | ⟨(s2, a2), st2, _⟩ => ⟨s2, st2, a2⟩
    equality := p.equality
    comparator := p.comparator }

/-- Models Iterate.keys: the index counter lives outside the per
element callback, so forwarded keys receive consecutive index keys;
STOP and REMOVE forward to the parent while REPLACE is not supported
and leaves the parent untouched.  The source constructs this cursor
without the parent argument, so no configuration is inherited. -/
def Iterate.keys (p : Iterate T K S) : Iterate K Nat S :=
  { source := fun σ cb s st =>
      let step : CbFn T K (σ × Nat × IterateAction) := fun _ k ska =>
        match cb k ska.2.1 ska.1 with
        | ⟨s1, a1, _⟩ =>
          ⟨(s1, ska.2.1 + 1, a1),
            match a1 with
            | IterateAction.STOP => IterateAction.STOP
            | IterateAction.REMOVE => IterateAction.REMOVE
            | _ => IterateAction.CONTINUE,
            none⟩
      match p.each step (s, 0, IterateAction.CONTINUE) st with
      | ⟨(s2, _, a2), st2, _⟩ => ⟨s2, st2, a2⟩ }

/-- Models Iterate.transform: forward the transformed value under the
original key when the transformer produces one; STOP and REMOVE map
onto the parent; REPLACE maps back through the untransformer when
present and is dropped otherwise.  The source constructs this cursor
without the parent argument, so no configuration is inherited. -/
def Iterate.transform (p : Iterate T K S) (transformer : T → K → Option W)
    (untransformer : Option (W → W → T → K → T)) : Iterate W K S :=
  { source := fun σ cb s st =>
      let step : CbFn T K (σ × IterateAction) := fun v k sa =>
        match transformer v k with
        | none => ⟨(sa.1, sa.2), IterateAction.CONTINUE, none⟩
        | some w =>
          match cb w k sa.1 with
          | ⟨s1, IterateAction.STOP, _⟩ =>
            ⟨(s1, IterateAction.STOP), IterateAction.STOP, none⟩
          | ⟨s1, IterateAction.REMOVE, _⟩ =>
            ⟨(s1, IterateAction.REMOVE), IterateAction.REMOVE, none⟩
          | ⟨s1, IterateAction.REPLACE, orw⟩ =>
            match untransformer, orw with
            | some u, some rw =>
              ⟨(s1, IterateAction.REPLACE), IterateAction.REPLACE,
                some (u rw w v k)⟩
            | _, _ => ⟨(s1, IterateAction.REPLACE), IterateAction.CONTINUE, none⟩
          | ⟨s1, IterateAction.CONTINUE, _⟩ =>
            ⟨(s1, IterateAction.CONTINUE), IterateAction.CONTINUE, none⟩
      match p.each step (s, IterateAction.CONTINUE) st with
      | ⟨(s2, a2), st2, _⟩ => ⟨s2, st2, a2⟩ }

/-- Drives the appended sources of a join after the main cursor: each
one is an array cursor over its captured list; a STOP on a child
aborts the remaining sources.  The mutated copies of the appended
lists are internal to the join closure and not observable through the
source state of the main cursor. -/
def joinOthersGo (cb : CbFn T Nat σ) :
    List (List T) → σ → IterateAction → σ × IterateAction
| [], s, a => (s, a)
| l :: rest, s, _ =>
  match arrayGo cb l 0 s IterateAction.CONTINUE with
  | ⟨s1, _, a1⟩ =>
    if a1 = IterateAction.STOP then (s1, IterateAction.STOP)
    else joinOthersGo cb rest s1 a1

/-- Models Iterate.append: a join of this cursor followed by the given
array sources; join constructs its cursor without a parent, so no
configuration is inherited. -/
def Iterate.append (p : Iterate T Nat S) (others : List (List T)) :
    Iterate T Nat S :=
  { source := fun _ cb s st =>
      match p.each cb s st with
      | ⟨s1, st1, a1⟩ =>
        if a1 = IterateAction.STOP then ⟨s1, st1, IterateAction.STOP⟩
        else
          match joinOthersGo cb others s1 a1 with
          | (s2, a2) => ⟨s2, st1, a2⟩ }

/-- Models Iterate.prepend: a join of the given array sources followed
by this cursor. -/
def Iterate.prepend (p : Iterate T Nat S) (others : List (List T)) :
    Iterate T Nat S :=
  { source := fun _ cb s st =>
      match joinOthersGo cb others s IterateAction.CONTINUE with
      | (s1, a1) =>
        if a1 = IterateAction.STOP then ⟨s1, st, IterateAction.STOP⟩
        else p.each cb s1 st }

/-- Inserts an element into a sorted list after every element ordered
at or below it, the stable insertion step. -/
def insertSorted (le : α → α → Bool) (x : α) : List α → List α
| [] => [x]
| y :: ys => if le y x then y :: insertSorted le x ys else x :: y :: ys

/-- Stable sort by insertion, modelling the guaranteed-stable host
array sort applied to a consistent comparator: equal elements keep
their original relative order. -/
def sortStable (le : α → α → Bool) (l : List α) : List α :=
  l.foldl (fun acc x => insertSorted le x acc) []

/-- Replay loop of Iterate.viewResolved: offers the resolved items
(value, key, original index) to the downstream consumer, recording for
each REMOVE or REPLACE the original index, the action, the original
value and the replacement, and breaking on STOP.  The action argument
threads the action left by the last act. -/
def replayGo (cb : CbFn T K σ) :
    List (T × K × Nat) → σ → List (Nat × IterateAction × T × Option T) →
    IterateAction →
    σ × List (Nat × IterateAction × T × Option T) × IterateAction
| [], s, recs, a => (s, recs, a)
| (v, k, idx) :: rest, s, recs, _ =>
  match cb v k s with
  | ⟨s1, IterateAction.STOP, _⟩ => (s1, recs, IterateAction.STOP)
  | ⟨s1, IterateAction.REMOVE, _⟩ =>
    replayGo cb rest s1 (recs ++ [(idx, IterateAction.REMOVE, v, none)])
      IterateAction.REMOVE
  | ⟨s1, IterateAction.REPLACE, rw⟩ =>
    replayGo cb rest s1 (recs ++ [(idx, IterateAction.REPLACE, v, rw)])
      IterateAction.REPLACE
  | ⟨s1, IterateAction.CONTINUE, _⟩ => replayGo cb rest s1 recs IterateAction.CONTINUE

/-- Models Iterate.viewResolved: snapshot the parent entries, replay
them in the order produced by onResolve (which receives the snapshot
and yields value, key and original index triples, breaking on STOP
inside the replay loop), and only when some REMOVE or REPLACE was
requested run a second, unsorted pass over the parent that counts
every visited element and applies the recorded action at the matching
original index when the value is identical to the recorded original.
The derived cursor inherits the parent configuration. -/
def Iterate.viewResolved [DecidableEq T] (p : Iterate T K S)
    (onResolve : List (K × T) → List (T × K × Nat)) : Iterate T K S :=
  { source := fun _ cb s st =>
      match p.each (fun v k acc => ⟨acc ++ [(k, v)], IterateAction.CONTINUE, none⟩)
        ([] : List (K × T)) st with
      | ⟨values, st1, _⟩ =>
        match replayGo cb (onResolve values) s [] IterateAction.CONTINUE with
        | (sF, recs, aF) =>
          if recs.isEmpty then ⟨sF, st1, aF⟩
          else
            match p.each (fun v _ j =>
              match recs.find? (fun r => decide (r.1 = j)) with
              | some (_, IterateAction.REMOVE, orig, _) =>
                ⟨j + 1,
                  if v = orig then IterateAction.REMOVE else IterateAction.CONTINUE,
                  none⟩
              | some (_, IterateAction.REPLACE, orig, rw) =>
                ⟨j + 1,
                  if v = orig then IterateAction.REPLACE else IterateAction.CONTINUE,
                  rw⟩
              | _ => ⟨j + 1, IterateAction.CONTINUE, none⟩) 0 st1 with
            | ⟨_, st2, _⟩ => ⟨sF, st2, aF⟩
    equality := p.equality
    comparator := p.comparator }

/-- Models Iterate.sorted: resolve the snapshot, pair every entry with
its original index, and replay in the stable ascending order of the
resolved comparator applied to the values. -/
def Iterate.sorted [DecidableEq T] (p : Iterate T K S) (dflt : CmpFn T)
    (cmpOvr : Option (CmpFn T)) : Iterate T K S :=
  p.viewResolved (fun values =>
    let cmp := p.getComparator dflt cmpOvr
    let mapped := values.enum.map (fun e => (e.2.2, e.2.1, e.1))
    sortStable (fun a b => decide (cmp a.1 b.1 ≤ 0)) mapped)

/-- Models Iterate.reverse: replay the snapshot back to front, keeping
the original indices. -/
def Iterate.reverse [DecidableEq T] (p : Iterate T K S) : Iterate T K S :=
  p.viewResolved (fun values =>
    (values.enum.map (fun e => (e.2.2, e.2.1, e.1))).reverse)

/-- Swaps the elements at two positions of a list when both exist. -/
def swapAt (i j : Nat) (l : List α) : List α :=
  match l.get? i, l.get? j with
  | some a, some b => (l.set i b).set j a
  | _, _ => l

/-- Swap schedule of Iterate.shuffle: passes times n steps, the step t
swapping position t mod n with the position drawn by the random source
(modelled as the rand function, reduced mod n as the floor of a draw
scaled by n). -/
def shuffleSwaps (rand : Nat → Nat) (n passes : Nat) : List (Nat × Nat) :=
  if n = 0 then []
  else (List.range (passes * n)).map (fun t => (rand t % n, t % n))

/-- Models Iterate.shuffle: the snapshot entries and their original
indices are swapped in lockstep by the swap schedule (the source swaps
the values array and the indices array at the same positions), then
replayed. -/
def Iterate.shuffle [DecidableEq T] (p : Iterate T K S) (rand : Nat → Nat)
    (passes : Nat) : Iterate T K S :=
  p.viewResolved (fun values =>
    let items := values.enum.map (fun e => (e.2.2, e.2.1, e.1))
    (shuffleSwaps rand values.length passes).foldl
      (fun acc jk => swapAt jk.1 jk.2 acc) items)

/-- Models Iterate.min: a reduce from the null initial value taking
the value whenever the resolved comparator orders it strictly below
the current minimum. -/
def Iterate.min (p : Iterate T K S) (dflt : CmpFn T) (st : S) : Option T :=
  let cmp := p.getComparator dflt none
  (p.each (fun v _ m =>
    ⟨match m with
      | none => some v
      | some mv => if cmp v mv < 0 then some v else some mv,
      IterateAction.CONTINUE, none⟩) none st).state

/-- Models the mutation Iterate.overwrite: each with a callback that
requests replace with the same value for every element. -/
def Iterate.overwrite (p : Iterate T K S) (replacement : T) (st : S) : S :=
  (p.each (fun _ _ _ => ⟨(), IterateAction.REPLACE, some replacement⟩) () st).src

/-- Instrumentation wrapper: the wrapped callback behaves exactly like
the given one and additionally appends every offered value to a visit
log carried in the state. -/
def logCb (cb : CbFn T K σ) : CbFn T K (List T × σ) := fun v k ls =>
  match cb v k ls.2 with
  | ⟨s1, a1, rw⟩ => ⟨(ls.1 ++ [v], s1), a1, rw⟩

/-- Callback requesting remove for every element (the callback of the
delete mutation). -/
def removeAllCb : CbFn T K Unit := fun _ _ _ => ⟨(), IterateAction.REMOVE, none⟩

/-- One constructor per view of the current revision that preserves
the element type, with the data each one captures at construction. -/
inductive ViewOp (T : Type) where
| vwhere (w : T → Nat → Bool)
| vnot (w : T → Nat → Bool)
| vtake (n : Int)
| vskip (n : Int)
| vgt (threshold : T) (cmpOvr : Option (CmpFn T))
| vgte (threshold : T) (cmpOvr : Option (CmpFn T))
| vlt (threshold : T) (cmpOvr : Option (CmpFn T))
| vlte (threshold : T) (cmpOvr : Option (CmpFn T))
| vsorted (cmpOvr : Option (CmpFn T))
| vreverse
| vshuffle (rand : Nat → Nat) (passes : Nat)
| vexclude (other : List T) (eqOvr : Option (EqFn T))
| vintersect (other : List T) (eqOvr : Option (EqFn T))
| vunique (eqOvr : Option (EqFn T))
| vduplicates (onlyOnce : Bool) (eqOvr : Option (EqFn T))
| vreadonly
| vvalues
| vtransform (f : T → Nat → Option T) (u : Option (T → T → T → Nat → T))
| vappend (others : List (List T))
| vprepend (others : List (List T))

/-- Applies one view constructor to a cursor. -/
def applyOp [DecidableEq T] (dflt : CmpFn T) (dfltEq : EqFn T) :
    ViewOp T → Iterate T Nat S → Iterate T Nat S
| ViewOp.vwhere w, p => p.where w
| ViewOp.vnot w, p => p.not w
| ViewOp.vtake n, p => p.take n
| ViewOp.vskip n, p => p.skip n
| ViewOp.vgt t c, p => p.gt dflt t c
| ViewOp.vgte t c, p => p.gte dflt t c
| ViewOp.vlt t c, p => p.lt dflt t c
| ViewOp.vlte t c, p => p.lte dflt t c
| ViewOp.vsorted c, p => p.sorted dflt c
| ViewOp.vreverse, p => p.reverse
| ViewOp.vshuffle r n, p => p.shuffle r n
| ViewOp.vexclude o e, p => p.exclude dfltEq o e
| ViewOp.vintersect o e, p => p.intersect dfltEq o e
| ViewOp.vunique e, p => p.unique dfltEq e
| ViewOp.vduplicates b e, p => p.duplicates dfltEq b e
| ViewOp.vreadonly, p => p.readonly
| ViewOp.vvalues, p => p.values
| ViewOp.vtransform f u, p => p.transform f u
| ViewOp.vappend o, p => p.append o
| ViewOp.vprepend o, p => p.prepend o

/-- Chain construction with the possible effect on the backing source
made explicit: the source state is an input and an output of every
construction step.  Every view constructor body of the source performs
no call into the source adapter (it only allocates the derived
cursor), so each translated step threads the source state through
unchanged. -/
def constructChain [DecidableEq T] (dflt : CmpFn T) (dfltEq : EqFn T) :
    List (ViewOp T) → Iterate T Nat S → S → Iterate T Nat S × S
| [], p, st => (p, st)
| op :: rest, p, st =>
  constructChain dflt dfltEq rest (applyOp dflt dfltEq op p) st

/-- Array cursor instrumented with an adapter invocation counter: the
source state additionally carries the number of times the adapter
closure has run. -/
def countedArray : Iterate T Nat (Nat × List T) :=
  { source := fun _ cb s nl =>
      match arrayGo cb nl.2 0 s IterateAction.CONTINUE with
      | ⟨s1, l1, a1⟩ => ⟨s1, (nl.1 + 1, l1), a1⟩ }

/-- Heap of the linked list model: the next pointer and the value of
every node, both mutable through the adapter hooks. -/
structure LinkedState (T : Type) : Type where
  nextF : Nat → Option Nat
  valF : Nat → T

/-- Traversal loop of the linked list adapter (linkedIterator of the
source): starting after the given previous node, capture the next
pointer of the current node before acting, then interpret the action:
STOP returns; REMOVE invokes the relink hook (the canonical hook sets
the next pointer of the previous node to the captured next) and does
not advance the previous node; REPLACE invokes the value setter hook
and advances; CONTINUE advances.  The default key of a node is its
value.  The loop also ends when the current node is the starting
previous node again (the cycle guard of the source).  The fuel
argument bounds the loop; any fuel above the chain length is
sufficient for the well formed heaps built below. -/
def linkedGo (cb : CbFn T T σ) :
    Nat → Nat → Nat → Option Nat → LinkedState T → σ → IterateAction →
    σ × LinkedState T × IterateAction
| 0, _, _, _, h, s, a => (s, h, a)
| _ + 1, _, _, none, h, s, a => (s, h, a)
| fuel + 1, start, prev, some c, h, s, a =>
  if c = start then (s, h, a)
  else
    let nx := h.nextF c
    match cb (h.valF c) (h.valF c) s with
    | ⟨s1, IterateAction.STOP, _⟩ => (s1, h, IterateAction.STOP)
    | ⟨s1, IterateAction.REMOVE, _⟩ =>
      linkedGo cb fuel start prev nx
        { h with nextF := fun i => if i = prev then nx else h.nextF i }
        s1 IterateAction.REMOVE
    | ⟨s1, IterateAction.REPLACE, rw⟩ =>
      linkedGo cb fuel start c nx
        { h with valF := fun i => if i = c then rw.getD (h.valF c) else h.valF i }
        s1 IterateAction.REPLACE
    | ⟨s1, IterateAction.CONTINUE, _⟩ =>
      linkedGo cb fuel start c nx h s1 IterateAction.CONTINUE

/-- Builds the canonical heap of a linked list holding the given
values: node 0 is the previous-node handle, node i holds the value at
position i - 1, and every node points to its successor.  The value
argument fills the positions outside the chain (never read during a
well formed traversal). -/
def linkedInit (d : T) (l : List T) : LinkedState T :=
  { nextF := fun i => if i < l.length then some (i + 1) else none
    valF := fun i => l.getD (i - 1) d }

/-- Runs the linked list adapter over the canonical heap of the given
values, starting at the handle node, with sufficient fuel. -/
def linkedEach (cb : CbFn T T σ) (d : T) (l : List T) (s : σ) :
    σ × LinkedState T × IterateAction :=
  let h := linkedInit d l
  linkedGo cb (l.length + 1) 0 0 (h.nextF 0) h s IterateAction.CONTINUE

/-- Visit log of one array adapter traversal under the given callback. -/
def visitsArray (cb : CbFn T Nat σ) (s : σ) (l : List T) : List T :=
  ((Iterate.array (T := T)).each (logCb cb) ([], s) l).state.1

/-- Visit log of one linked list adapter traversal under the given
callback. -/
def visitsLinked (cb : CbFn T T σ) (d : T) (s : σ) (l : List T) : List T :=
  (linkedEach (logCb cb) d l ([], s)).1.1

/-- Rose tree node: the node shape the tree adapter traverses, with
children held in an array. -/
inductive TreeNode (T : Type) where
| mk (val : T) (children : List (TreeNode T))
deriving Repr

mutual

/-- Number of nodes of a tree. -/
def TreeNode.size : TreeNode T → Nat
| TreeNode.mk _ ch => 1 + TreeNode.sizeList ch

/-- Number of nodes of a forest. -/
def TreeNode.sizeList : List (TreeNode T) → Nat
| [] => 0
| t :: r => TreeNode.size t + TreeNode.sizeList r

end

/-- Action a visited tree node leaves on the cursor iterating its
sibling array (the parent handle of the depth first recursion). -/
inductive TreeSig where
| scont
| sstop
| sremove
deriving DecidableEq, Repr

mutual

/-- Depth first visit of a non root node (traverseDepthFirst plus
handleAction of the source, with a parent cursor present): act on the
node value (default key is the value); STOP stops the sibling cursor
and skips the children; REPLACE applies the value setter when present,
raises the strict error when absent in strict mode, and is dropped
otherwise; REMOVE asks the sibling cursor to splice this node out (the
signal in the result), after which the children are still visited;
then the children are driven through their own array cursor. -/
def dfsNode (strict hasReplace : Bool) (cb : CbFn T T σ) :
    TreeNode T → σ → Except String (σ × TreeNode T × TreeSig)
| TreeNode.mk v ch, s =>
  let r := cb v v s
  match r.action with
  | IterateAction.STOP => Except.ok (r.state, TreeNode.mk v ch, TreeSig.sstop)
  | IterateAction.REPLACE =>
    if hasReplace then
      (dfsChildren strict hasReplace cb ch r.state).map (fun o =>
        (o.1, TreeNode.mk (r.replaceWith.getD v) o.2.1, TreeSig.scont))
    else if strict then
      Except.error "replaceValue is required when replacing a value in a tree"
    else
      (dfsChildren strict hasReplace cb ch r.state).map (fun o =>
        (o.1, TreeNode.mk v o.2.1, TreeSig.scont))
  | IterateAction.REMOVE =>
    (dfsChildren strict hasReplace cb ch r.state).map (fun o =>
      (o.1, TreeNode.mk v o.2.1, TreeSig.sremove))
  | IterateAction.CONTINUE =>
    (dfsChildren strict hasReplace cb ch r.state).map (fun o =>
      (o.1, TreeNode.mk v o.2.1, TreeSig.scont))

/-- Child array traversal of the depth first recursion: the array
cursor over the children reacts to the signal of each visited child
exactly like the array adapter reacts to actions, splicing out a child
whose visit requested removal, stopping on a stop signal (the boolean
reports whether it stopped, the discarded return value of
traverseDepthFirst), and keeping the child otherwise. -/
def dfsChildren (strict hasReplace : Bool) (cb : CbFn T T σ) :
    List (TreeNode T) → σ → Except String (σ × List (TreeNode T) × Bool)
| [], s => Except.ok (s, [], false)
| c :: rest, s =>
  match dfsNode strict hasReplace cb c s with
  | Except.error e => Except.error e
  | Except.ok (s2, c2, sig) =>
    match sig with
    | TreeSig.sstop => Except.ok (s2, c2 :: rest, true)
    | TreeSig.sremove => dfsChildren strict hasReplace cb rest s2
    | TreeSig.scont =>
      match dfsChildren strict hasReplace cb rest s2 with
      | Except.error e => Except.error e
      | Except.ok (s3, rest2, stopped) => Except.ok (s3, c2 :: rest2, stopped)

end

/-- Depth first traversal from the starting node (treeIterator with
depthFirst true): the starting node has no parent cursor, so a REMOVE
requested for it is silently dropped even in strict mode
(handleAction receives throwOnRemove false for depth first), and the
traversal proceeds into its children. -/
def dfsRoot (strict hasReplace : Bool) (cb : CbFn T T σ) (t : TreeNode T)
    (s : σ) : Except String (σ × TreeNode T) :=
  match t with
  | TreeNode.mk v ch =>
    let r := cb v v s
    match r.action with
    | IterateAction.STOP => Except.ok (r.state, TreeNode.mk v ch)
    | IterateAction.REPLACE =>
      if hasReplace then
        (dfsChildren strict hasReplace cb ch r.state).map (fun o =>
          (o.1, TreeNode.mk (r.replaceWith.getD v) o.2.1))
      else if strict then
        Except.error "replaceValue is required when replacing a value in a tree"
      else
        (dfsChildren strict hasReplace cb ch r.state).map (fun o =>
          (o.1, TreeNode.mk v o.2.1))
    | IterateAction.REMOVE =>
      (dfsChildren strict hasReplace cb ch r.state).map (fun o =>
        (o.1, TreeNode.mk v o.2.1))
    | IterateAction.CONTINUE =>
      (dfsChildren strict hasReplace cb ch r.state).map (fun o =>
        (o.1, TreeNode.mk v o.2.1))

/-- Breadth first traversal (traverseBreadthFirst of the source): a
queue driven level order loop; handleAction runs with no parent cursor
and throwOnRemove true, so a REMOVE raises the strict error in strict
mode and is silently dropped otherwise; children are enqueued after
their parent is processed.  Replacement mutates only node values
already dequeued, and no claim concerns the resulting tree of a
breadth first replace, so the loop returns the callback state only. -/
def bfsGo (strict hasReplace : Bool) (cb : CbFn T T σ) :
    List (TreeNode T) → σ → Except String σ
| [], s => Except.ok s
| TreeNode.mk v ch :: rest, s =>
  let r := cb v v s
  match r.action with
  | IterateAction.STOP => Except.ok r.state
  | IterateAction.REPLACE =>
    if hasReplace then bfsGo strict hasReplace cb (rest ++ ch) r.state
    else if strict then
      Except.error "replaceValue is required when replacing a value in a tree"
    else bfsGo strict hasReplace cb (rest ++ ch) r.state
  | IterateAction.REMOVE =>
    if strict then
      Except.error "remove is not supported for breadth-first iteration"
    else bfsGo strict hasReplace cb (rest ++ ch) r.state
  | IterateAction.CONTINUE => bfsGo strict hasReplace cb (rest ++ ch) r.state
termination_by q _ => TreeNode.sizeList q
decreasing_by
  all_goals
    have happ : ∀ (a b : List (TreeNode T)),
        TreeNode.sizeList (a ++ b) = TreeNode.sizeList a + TreeNode.sizeList b := by
      intro a b
      induction a with
      | nil => simp [TreeNode.sizeList]
      | cons x xs ih => simp [TreeNode.sizeList, ih]; omega
    simp [happ, TreeNode.sizeList, TreeNode.size]
    omega

/-- Level order of a forest, the pure visit order of the breadth
first loop. -/
def bfsOrder : List (TreeNode T) → List T
| [] => []
| TreeNode.mk v ch :: rest => v :: bfsOrder (rest ++ ch)
termination_by q => TreeNode.sizeList q
decreasing_by
  have happ : ∀ (a b : List (TreeNode T)),
      TreeNode.sizeList (a ++ b) = TreeNode.sizeList a + TreeNode.sizeList b := by
    intro a b
    induction a with
    | nil => simp [TreeNode.sizeList]
    | cons x xs ih => simp [TreeNode.sizeList, ih]; omega
  simp [happ, TreeNode.sizeList, TreeNode.size]
  omega

/-- Reports whether an Except value carries a result. -/
def exceptOk : Except ε α → Bool
| Except.ok _ => true
| Except.error _ => false

/-- Callback requesting remove exactly for one value and continuing
otherwise (used to exercise targeted removal on trees). -/
def removeValueCb (x : Int) : CbFn Int Int Unit := fun v _ _ =>
  if v = x then ⟨(), IterateAction.REMOVE, none⟩
  else ⟨(), IterateAction.CONTINUE, none⟩

/-- Sample fixture tree: value 1 at the root with children 2 (having
children 4 and 5) and 3. -/
def sampleTree : TreeNode Int :=
  TreeNode.mk 1 [TreeNode.mk 2 [TreeNode.mk 4 [], TreeNode.mk 5 []], TreeNode.mk 3 []]

/-! Helper lemmas about the embedded traversals. -/

/-- Every array adapter traversal under a callback that never stops
visits exactly the backing elements in order, whatever removals and
replacements the callback requests. -/
theorem arrayGo_log (cb : CbFn T Nat σ)
    (hstop : ∀ v k s0, (cb v k s0).action ≠ IterateAction.STOP) :
    ∀ (l : List T) (i : Nat) (log : List T) (s : σ) (a : IterateAction),
      (arrayGo (logCb cb) l i (log, s) a).state.1 = log ++ l := by
  intro l
  induction l with
  | nil => intro i log s a; simp [arrayGo]
  | cons v rest ih =>
    intro i log s a
    have h := hstop v i s
    rcases hr : cb v i s with ⟨s1, a1, rw1⟩
    cases a1 with
    | STOP => rw [hr] at h; exact absurd rfl h
    | REMOVE => simp [arrayGo, logCb, hr, ih]
    | REPLACE => simp [arrayGo, logCb, hr, ih]
    | CONTINUE => simp [arrayGo, logCb, hr, ih]

/-- The where view composed with the delete mutation over the array
adapter leaves exactly the elements failing the filter, in order. -/
theorem arrayGo_filter_delete (g : T → Bool) :
    ∀ (l : List T) (i : Nat) (d : Unit × Unit × IterateAction) (a : IterateAction),
      (arrayGo (fun v _ dsa =>
        if g v then ⟨(dsa.1, (), IterateAction.REMOVE), IterateAction.REMOVE, none⟩
        else ⟨(dsa.1, dsa.2.1, dsa.2.2), IterateAction.CONTINUE, none⟩) l i d a).src
        = l.filter (fun v => !(g v)) := by
  intro l
  induction l with
  | nil => intro i d a; simp [arrayGo]
  | cons v rest ih =>
    intro i d a
    by_cases hg : g v
    · simp [arrayGo, hg, ih, List.filter]
    · simp [arrayGo, hg, ih, List.filter]

/-- A stop-on-match traversal over the array adapter ends stopped iff
some element satisfies the test. -/
theorem arrayGo_any_stop (g : D → T → Bool) :
    ∀ (l : List T) (i : Nat) (d : D) (u : Unit),
      decide ((arrayGo (fun v _ dsa =>
        if g dsa.1 v then
          ⟨(dsa.1, (), IterateAction.STOP), IterateAction.STOP, none⟩
        else ⟨(dsa.1, dsa.2.1, dsa.2.2), IterateAction.CONTINUE, none⟩)
        l i (d, u, IterateAction.CONTINUE) IterateAction.CONTINUE).state.2.2
          = IterateAction.STOP)
        = l.any (g d) := by
  intro l
  induction l with
  | nil => intro i d u; simp [arrayGo]
  | cons v rest ih =>
    intro i d u
    by_cases hg : g d v
    · simp [arrayGo, hg]
    · simp [arrayGo, hg, ih]

/-- The contains operation on an array cursor with a configured
equality is the any-equal test on the backing list. -/
theorem contains_array_any (eq : EqFn T) (dfltEq : EqFn T) (v : T) (lst : List T) :
    ((Iterate.array (T := T)).withEquality eq).contains dfltEq v lst
      = lst.any (fun o => eq o v) :=
  arrayGo_any_stop (D := Unit) (fun _ o => eq o v) lst 0 () ()

/-- A pure filtering view composed with the array building operation
over the array adapter collects exactly the passing elements. -/
theorem arrayGo_filter_collect (g : D → T → Bool) :
    ∀ (l : List T) (i : Nat) (d : D) (acc : List T) (x : IterateAction)
      (a : IterateAction),
      (arrayGo (fun v _ dsa =>
        if g dsa.1 v then
          ⟨(dsa.1, dsa.2.1 ++ [v], IterateAction.CONTINUE), IterateAction.CONTINUE, none⟩
        else ⟨(dsa.1, dsa.2.1, dsa.2.2), IterateAction.CONTINUE, none⟩)
        l i (d, acc, x) a).state.2.1
        = acc ++ l.filter (g d) := by
  intro l
  induction l with
  | nil => intro i d acc x a; simp [arrayGo]
  | cons v rest ih =>
    intro i d acc x a
    by_cases hg : g d v
    · simp [arrayGo, hg, ih, List.filter]
    · simp [arrayGo, hg, ih, List.filter]

/-- The exclude view over an array source with a configured equality
builds exactly the elements with no equal member in the other source. -/
theorem exclude_array_filter (eq dfltEq : EqFn T) (la lb : List T) :
    (((Iterate.array (T := T)).withEquality eq).exclude dfltEq lb none).toArray la
      = la.filter (fun v => !(lb.any (fun o => eq o v))) := by
  have h := arrayGo_filter_collect (D := List T)
    (fun lst v => !(((Iterate.array (T := T)).withEquality
      (((Iterate.array (T := T)).withEquality eq).getEquality dfltEq none)).contains
        dfltEq v lst)) la 0 lb [] IterateAction.CONTINUE IterateAction.CONTINUE
  refine Eq.trans h ?_
  simp only [List.nil_append]
  congr 1
  funext v
  rw [contains_array_any]
  rfl

/-- The intersect view over an array source with a configured equality
builds exactly the elements with an equal member in the other source. -/
theorem intersect_array_filter (eq dfltEq : EqFn T) (la lb : List T) :
    (((Iterate.array (T := T)).withEquality eq).intersect dfltEq lb none).toArray la
      = la.filter (fun v => lb.any (fun o => eq o v)) := by
  have h := arrayGo_filter_collect (D := List T)
    (fun lst v => (((Iterate.array (T := T)).withEquality
      (((Iterate.array (T := T)).withEquality eq).getEquality dfltEq none)).contains
        dfltEq v lst)) la 0 lb [] IterateAction.CONTINUE IterateAction.CONTINUE
  refine Eq.trans h ?_
  simp only [List.nil_append]
  congr 1
  funext v
  rw [contains_array_any]
  rfl

/-- Invariant run of the linked list loop: starting at chain position
k of the canonical heap (possibly relinked behind the running
position and revalued at visited nodes), a callback that never stops
is offered exactly the remaining values in order. -/
theorem linkedGo_visits (cb : CbFn T T σ)
    (hstop : ∀ v k s0, (cb v k s0).action ≠ IterateAction.STOP)
    (d : T) (l : List T) :
    ∀ (m : Nat), ∀ (k prev : Nat) (curr : Option Nat) (h : LinkedState T)
      (log : List T) (s : σ) (a : IterateAction),
      1 ≤ k → prev < k → l.length + 1 - k ≤ m →
      curr = (if k ≤ l.length then some k else none) →
      (∀ i, k ≤ i → h.nextF i = if i < l.length then some (i + 1) else none) →
      (∀ i, k ≤ i → h.valF i = l.getD (i - 1) d) →
      (linkedGo (logCb cb) m 0 prev curr h (log, s) a).1.1
        = log ++ l.drop (k - 1) := by
  intro m
  induction m with
  | zero =>
    intro k prev curr h log s a hk hprev hm hcurr _ _
    have hkl : ¬(k ≤ l.length) := by omega
    rw [List.drop_eq_nil_of_le (by omega : l.length ≤ k - 1)]
    subst hcurr
    simp [hkl, linkedGo]
  | succ m ih =>
    intro k prev curr h log s a hk hprev hm hcurr hnext hval
    by_cases hkl : k ≤ l.length
    · rw [hcurr, if_pos hkl]
      have hk0 : ¬(k = 0) := by omega
      have hvk : h.valF k = l.getD (k - 1) d := hval k le_rfl
      have hnk : h.nextF k = if k < l.length then some (k + 1) else none :=
        hnext k le_rfl
      have hcbne := hstop (h.valF k) (h.valF k) s
      rcases hcb : cb (h.valF k) (h.valF k) s with ⟨s1, a1, rw1⟩
      have hdrop : l.drop (k - 1) = l.getD (k - 1) d :: l.drop k := by
        have hlt : k - 1 < l.length := by omega
        rw [List.getD_eq_getElem l d hlt, List.drop_eq_getElem_cons hlt]
        have hk1 : k - 1 + 1 = k := by omega
        rw [hk1]
      have hnk2 : h.nextF k = if k + 1 ≤ l.length then some (k + 1) else none :=
        hnk.trans rfl
      cases a1 with
      | STOP => rw [hcb] at hcbne; exact absurd rfl hcbne
      | REMOVE =>
        have step : (linkedGo (logCb cb) (m + 1) 0 prev (some k) h (log, s) a).1.1
            = (linkedGo (logCb cb) m 0 prev (h.nextF k)
                { h with nextF := fun i => if i = prev then h.nextF k else h.nextF i }
                (log ++ [h.valF k], s1) IterateAction.REMOVE).1.1 := by
          simp [linkedGo, hk0, logCb, hcb]
        rw [step]
        rw [ih (k + 1) prev (h.nextF k)
          { h with nextF := fun i => if i = prev then h.nextF k else h.nextF i }
          (log ++ [h.valF k]) s1 IterateAction.REMOVE
          (by omega) (by omega) (by omega) hnk2
          (by
            intro i hi
            have hne : ¬(i = prev) := by omega
            simp only [hne, if_false]
            exact hnext i (by omega))
          (by intro i hi; exact hval i (by omega))]
        rw [hdrop, hvk]
        simp
      | REPLACE =>
        have step : (linkedGo (logCb cb) (m + 1) 0 prev (some k) h (log, s) a).1.1
            = (linkedGo (logCb cb) m 0 k (h.nextF k)
                { h with valF := fun i =>
                    if i = k then rw1.getD (h.valF k) else h.valF i }
                (log ++ [h.valF k], s1) IterateAction.REPLACE).1.1 := by
          simp [linkedGo, hk0, logCb, hcb]
        rw [step]
        rw [ih (k + 1) k (h.nextF k)
          { h with valF := fun i => if i = k then rw1.getD (h.valF k) else h.valF i }
          (log ++ [h.valF k]) s1 IterateAction.REPLACE
          (by omega) (by omega) (by omega) hnk2
          (by intro i hi; exact hnext i (by omega))
          (by
            intro i hi
            have hne : ¬(i = k) := by omega
            simp only [hne, if_false]
            exact hval i (by omega))]
        rw [hdrop, hvk]
        simp
      | CONTINUE =>
        have step : (linkedGo (logCb cb) (m + 1) 0 prev (some k) h (log, s) a).1.1
            = (linkedGo (logCb cb) m 0 k (h.nextF k) h
                (log ++ [h.valF k], s1) IterateAction.CONTINUE).1.1 := by
          simp [linkedGo, hk0, logCb, hcb]
        rw [step]
        rw [ih (k + 1) k (h.nextF k) h (log ++ [h.valF k]) s1 IterateAction.CONTINUE
          (by omega) (by omega) (by omega) hnk2
          (by intro i hi; exact hnext i (by omega))
          (by intro i hi; exact hval i (by omega))]
        rw [hdrop, hvk]
        simp
    · rw [hcurr, if_neg hkl]
      rw [List.drop_eq_nil_of_le (by omega : l.length ≤ k - 1)]
      simp [linkedGo]

/-- The linked list adapter visits every value of the chain exactly
once and in order whenever the callback never stops. -/
theorem visitsLinked_all (cb : CbFn T T σ)
    (hstop : ∀ v k s0, (cb v k s0).action ≠ IterateAction.STOP)
    (d : T) (s : σ) (l : List T) :
    visitsLinked cb d s l = l := by
  have h := linkedGo_visits cb hstop d l (l.length + 1) 1 0
    ((linkedInit d l).nextF 0) (linkedInit d l) [] s IterateAction.CONTINUE
    le_rfl Nat.zero_lt_one (by omega) rfl
    (by intro i _; rfl) (by intro i _; rfl)
  unfold visitsLinked linkedEach
  rw [h]
  simp

/-- One each run on the instrumented array cursor bumps the adapter
invocation counter by exactly one. -/
theorem countedArray_each_bump (cb : CbFn T Nat σ) (s : σ) (n : Nat) (l : List T) :
    ((countedArray (T := T)).each cb s (n, l)).src.1 = n + 1 := by
  show (match arrayGo cb l 0 s IterateAction.CONTINUE with
    | ⟨s1, l1, a1⟩ => (⟨s1, (n + 1, l1), a1⟩ : EachOut σ (Nat × List T))).src.1 = n + 1
  rcases arrayGo cb l 0 s IterateAction.CONTINUE with ⟨s1, l1, a1⟩
  rfl

/-- Mapping over an Except value preserves whether it is a result. -/
theorem exceptOk_map (f : α → β) : ∀ e : Except ε α, exceptOk (e.map f) = exceptOk e
| Except.ok _ => rfl
| Except.error _ => rfl

/-- Every tree has at least one node. -/
theorem treeSize_pos : ∀ t : TreeNode T, 1 ≤ TreeNode.size t := by
  intro t
  cases t with
  | mk v ch => simp [TreeNode.size]

/-- With the replace hook present, the depth first visit never raises:
the only error sites are the missing replace hook and the breadth
first remove rejection, neither reachable here. -/
theorem dfs_no_error (strict : Bool) (cb : CbFn T T σ) :
    ∀ (n : Nat),
      (∀ t : TreeNode T, TreeNode.size t ≤ n → ∀ s : σ,
        exceptOk (dfsNode strict true cb t s) = true)
      ∧ (∀ l : List (TreeNode T), TreeNode.sizeList l ≤ n → ∀ s : σ,
        exceptOk (dfsChildren strict true cb l s) = true) := by
  intro n
  induction n using Nat.strong_induction_on with
  | _ n ih =>
    have htree : ∀ t : TreeNode T, TreeNode.size t ≤ n → ∀ s : σ,
        exceptOk (dfsNode strict true cb t s) = true := by
      intro t hsz s
      cases t with
      | mk v ch =>
        have h1 := treeSize_pos (TreeNode.mk v ch)
        have hn1 : n - 1 < n := by omega
        have hch : TreeNode.sizeList ch ≤ n - 1 := by
          simp [TreeNode.size] at hsz
          omega
        have hchok := (ih (n - 1) hn1).2 ch hch
        rcases hcb : cb v v s with ⟨s1, a1, rw1⟩
        cases a1 with
        | STOP => simp [dfsNode, hcb, exceptOk]
        | REPLACE => simp [dfsNode, hcb, exceptOk_map]; exact hchok s1
        | REMOVE => simp [dfsNode, hcb, exceptOk_map]; exact hchok s1
        | CONTINUE => simp [dfsNode, hcb, exceptOk_map]; exact hchok s1
    refine ⟨htree, ?_⟩
    intro l
    induction l with
    | nil => intro _ s; simp [dfsChildren, exceptOk]
    | cons c rest ihl =>
      intro hsz s
      have h1 := treeSize_pos c
      have hszc : TreeNode.size c ≤ n := by
        simp [TreeNode.sizeList] at hsz
        omega
      have hszr : TreeNode.sizeList rest ≤ n := by
        simp [TreeNode.sizeList] at hsz
        omega
      have hcok := htree c hszc s
      rcases hres : dfsNode strict true cb c s with e | o
      · rw [hres] at hcok; simp [exceptOk] at hcok
      · rcases o with ⟨s2, c2, sig⟩
        cases sig with
        | sstop => simp [dfsChildren, hres, exceptOk]
        | sremove => simp [dfsChildren, hres]; exact ihl hszr s2
        | scont =>
          have hrok := ihl hszr s2
          rcases hrest : dfsChildren strict true cb rest s2 with e2 | o2
          · rw [hrest] at hrok; simp [exceptOk] at hrok
          · rcases o2 with ⟨s3, rest2, stopped⟩
            simp [dfsChildren, hres, hrest, exceptOk]

/-- A depth first traversal from any starting node with the replace
hook present never raises, whatever actions the callback requests and
whether or not strict mode is on. -/
theorem dfsRoot_no_error (strict : Bool) (cb : CbFn T T σ) (t : TreeNode T)
    (s : σ) : exceptOk (dfsRoot strict true cb t s) = true := by
  cases t with
  | mk v ch =>
    have hch := (dfs_no_error strict cb (TreeNode.sizeList ch)).2 ch le_rfl
    rcases hcb : cb v v s with ⟨s1, a1, rw1⟩
    cases a1 with
    | STOP => simp [dfsRoot, hcb, exceptOk]
    | REPLACE => simp [dfsRoot, hcb, exceptOk_map]; exact hch s1
    | REMOVE => simp [dfsRoot, hcb, exceptOk_map]; exact hch s1
    | CONTINUE => simp [dfsRoot, hcb, exceptOk_map]; exact hch s1

/-! Claim theorems. -/

/-- Claim C1: for the array source [1, 6, 2, 3, 8, 7, 0, 3] with a
numeric comparator, sorted followed by take 3 followed by delete
forwards exactly the 3 smallest values (snapshot view [0, 1, 2]) and,
through the second unsorted pass of viewResolved correlating by value
identity at the original index, removes them from the backing array,
leaving [6, 3, 8, 7, 3] with the original relative order of the
remaining elements preserved; this holds for every default comparator
since the inline numeric comparator resolves first. -/
theorem c1_sorted_take_delete :
    ∀ dflt : CmpFn Int,
      ((((Iterate.array (T := Int)).sorted dflt
          (some (getNumberComparator true false))).take 3).toArray
        [1, 6, 2, 3, 8, 7, 0, 3] = [0, 1, 2])
      ∧ ((((Iterate.array (T := Int)).sorted dflt
          (some (getNumberComparator true false))).take 3).delete
        [1, 6, 2, 3, 8, 7, 0, 3] = [6, 3, 8, 7, 3]) :=
  fun _ => ⟨rfl, rfl⟩

/-- Claim C2: deleting through a where view splices exactly the
elements passing the predicate out of the backing array and keeps all
others in their original order; in particular the source [1, 2, 0, 3]
with the even predicate becomes [1, 3]. -/
theorem c2_where_delete :
    (((Iterate.array (T := Int)).where
        (fun v _ => decide (v % 2 = 0))).delete [1, 2, 0, 3] = [1, 3])
    ∧ (∀ (T : Type) (g : T → Bool) (l : List T),
      ((Iterate.array (T := T)).where (fun v _ => g v)).delete l
        = l.filter (fun v => !(g v))) :=
  ⟨rfl, fun _ g l =>
    arrayGo_filter_delete g l 0 ((), (), IterateAction.CONTINUE)
      IterateAction.CONTINUE⟩

/-- Claim C3: constructing any chain of view constructors leaves the
backing source unchanged (the construction step threads the source
state through untouched because no constructor body calls into the
source adapter), and the adapter closure runs only when a terminal
operation or mutation drives each: one each run on the instrumented
array cursor bumps its invocation counter, both directly and through
a view. -/
theorem c3_laziness :
    (∀ (T : Type) [DecidableEq T] (dflt : CmpFn T) (dfltEq : EqFn T)
      (ops : List (ViewOp T)) (S : Type) (p : Iterate T Nat S) (st : S),
      (constructChain dflt dfltEq ops p st).2 = st)
    ∧ (∀ (n : Nat) (l : List Int),
      ((countedArray (T := Int)).each
        (fun v _ acc => ⟨acc ++ [v], IterateAction.CONTINUE, none⟩)
        ([] : List Int) (n, l)).src.1 = n + 1)
    ∧ (∀ (n : Nat) (l : List Int) (w : Int → Nat → Bool),
      (((countedArray (T := Int)).where w).delete (n, l)).1 = n + 1) := by
  refine ⟨?_, ?_, ?_⟩
  · intro T _ dflt dfltEq ops
    induction ops with
    | nil => intro S p st; rfl
    | cons op rest ih => intro S p st; exact ih S (applyOp dflt dfltEq op p) st
  · intro n l
    exact countedArray_each_bump _ _ n l
  · intro n l w
    show ((match (countedArray (T := Int)).each
        (viewStep { getData := (), shouldAct := fun _ v k => w v k }
          (fun _ _ _ => ⟨(), IterateAction.REMOVE, none⟩))
        ((), (), IterateAction.CONTINUE) (n, l) with
      | ⟨(_, s2, a2), st2, _⟩ => (⟨s2, st2, a2⟩ : EachOut Unit (Nat × List Int))).src).1
        = n + 1
    have hb := countedArray_each_bump
      (viewStep { getData := (), shouldAct := fun _ v k => w v k }
        (fun _ _ _ => ⟨(), IterateAction.REMOVE, none⟩))
      ((), (), IterateAction.CONTINUE) n l
    rcases hx : (countedArray (T := Int)).each
        (viewStep { getData := (), shouldAct := fun _ v k => w v k }
          (fun _ _ _ => ⟨(), IterateAction.REMOVE, none⟩))
        ((), (), IterateAction.CONTINUE) (n, l) with ⟨⟨d, s2, a2⟩, st2, aa⟩
    rw [hx] at hb
    exact hb

/-- Claim C4: under any callback that never stops, the sequential
array adapter (splice plus index decrement) and the linked list
adapter (relink hook without advancing the previous node) both
continue at the logical next remaining element after every REMOVE,
visiting every element of the backing structure exactly once and in
order, so no unaffected element is skipped or repeated. -/
theorem c4_remove_continuation :
    (∀ (T σ : Type) (cb : CbFn T Nat σ) (s : σ) (l : List T),
      (∀ v k s0, (cb v k s0).action ≠ IterateAction.STOP) →
      visitsArray cb s l = l)
    ∧ (∀ (T σ : Type) (cb : CbFn T T σ) (d : T) (s : σ) (l : List T),
      (∀ v k s0, (cb v k s0).action ≠ IterateAction.STOP) →
      visitsLinked cb d s l = l) := by
  constructor
  · intro T σ cb s l hstop
    exact (arrayGo_log cb hstop l 0 [] s IterateAction.CONTINUE).trans
      (List.nil_append l)
  · intro T σ cb d s l hstop
    exact visitsLinked_all cb hstop d s l

/-- Witness for C4 at the unconditional remove callback on the
concrete source [5, 6, 7]. -/
theorem c4_remove_continuation_witness :
    visitsArray (removeAllCb (T := Int)) () [5, 6, 7] = [5, 6, 7]
    ∧ visitsLinked (removeAllCb (T := Int) (K := Int)) 0 () [5, 6, 7] = [5, 6, 7] :=
  ⟨c4_remove_continuation.1 Int Unit removeAllCb () [5, 6, 7]
      (fun _ _ _ => by simp [removeAllCb]),
    c4_remove_continuation.2 Int Unit removeAllCb 0 () [5, 6, 7]
      (fun _ _ _ => by simp [removeAllCb])⟩

/-- Claim C5, counterexample: in the current revision a
comparator-dependent operation invoked with no comparator configured
does not raise any error; min on the plain array cursor (whose
comparator is none) over [2, 1] completes and returns a value, here
instantiating the missing defaultCompare at subtraction. -/
theorem c5_counterexample :
    Iterate.min (Iterate.array (T := Int)) (fun a b => a - b) [2, 1] = some 1
    ∧ (Iterate.array (T := Int)).comparator = none :=
  ⟨rfl, rfl⟩

/-- Claim C5, amended: in the current revision getComparator never
fails and falls back to the default comparator built from
defaultCompare when no comparator is configured and none is supplied
inline; the configuration error exists only in the earlier revision
of Iterate.ts, whose getComparator throws exactly when neither an
override nor a configured comparator is present. -/
theorem c5_amended :
    (∀ (T K S : Type) (p : Iterate T K S) (dflt : CmpFn T),
      p.comparator = none → p.getComparator dflt none = dflt)
    ∧ getComparatorV1 (T := Int) none none
        = Except.error "A comparator is required for the requested action"
    ∧ (∀ (T : Type) (c : CmpFn T) (conf : Option (CmpFn T)),
        getComparatorV1 (some c) conf = Except.ok c)
    ∧ (∀ (T : Type) (c : CmpFn T),
        getComparatorV1 (T := T) none (some c) = Except.ok c) := by
  refine ⟨?_, rfl, ?_, ?_⟩
  · intro T K S p dflt h
    simp [Iterate.getComparator, h]
  · intro T c conf; rfl
  · intro T c; rfl

/-- Witness for C5 amended at the plain array cursor, whose
comparator is none. -/
theorem c5_amended_witness :
    (Iterate.array (T := Int)).getComparator (fun a b => a - b) none
      = (fun a b => a - b) :=
  c5_amended.1 Int Nat (List Int) (Iterate.array (T := Int)) (fun a b => a - b) rfl

/-- Claim C6: a REMOVE during breadth first traversal raises the
strict error for every tree and is silently ignored in non strict
mode (the sample run completes the full level order visit), while a
REMOVE during depth first traversal is honored by the child-iteration
cursor of the parent node, splicing the child (with its subtree) out
of the children collection after the subtree is visited. -/
theorem c6_tree_remove :
    (∀ t : TreeNode Int,
      bfsGo true true (removeAllCb (T := Int) (K := Int)) [t] ()
        = Except.error "remove is not supported for breadth-first iteration")
    ∧ bfsGo false true (logCb (removeAllCb (T := Int) (K := Int)))
        [sampleTree] ([], ()) = Except.ok ([1, 2, 3, 4, 5], ())
    ∧ dfsRoot true true (logCb (removeValueCb 2)) sampleTree ([], ())
        = Except.ok (([1, 2, 4, 5, 3], ()), TreeNode.mk 1 [TreeNode.mk 3 []]) := by
  refine ⟨?_, ?_, ?_⟩
  · intro t
    cases t with
    | mk v ch => simp [bfsGo, removeAllCb]
  · simp [sampleTree, bfsGo, logCb, removeAllCb]
  · simp [sampleTree, dfsRoot, dfsNode, dfsChildren, logCb, removeValueCb,
      Except.map]

/-- Claim C7: the values view of the current revision declares its
index counter inside the per element callback, so every forwarded
element is offered with key 0 instead of the documented running index
(the keys view, whose counter lives outside the callback, shows the
intended numbering); in the keys view REPLACE is a no-op on the
source while REMOVE and STOP forward to the parent. -/
theorem c7_values_key_bug :
    ((Iterate.array (T := Int)).values).entriesOp [10, 20, 30]
        = [(0, 10), (0, 20), (0, 30)]
    ∧ ((Iterate.array (T := Int)).keys).entriesOp [10, 20, 30]
        = [(0, 0), (1, 1), (2, 2)]
    ∧ ((Iterate.array (T := Int)).keys).delete [10, 20, 30] = []
    ∧ ((Iterate.array (T := Int)).keys).overwrite 99 [10, 20, 30]
        = [10, 20, 30] :=
  ⟨rfl, rfl, rfl, rfl⟩

/-- Claim C8: for all finite sources and any active equality, the
arrays built by the exclude view and the intersect view partition the
elements of the first source: together they cover it exactly and no
element appears in both. -/
theorem c8_exclude_intersect_partition :
    ∀ (T : Type) (eq dfltEq : EqFn T) (la lb : List T),
      (∀ x, x ∈ la ↔
        (x ∈ (((Iterate.array (T := T)).withEquality eq).exclude
            dfltEq lb none).toArray la
          ∨ x ∈ (((Iterate.array (T := T)).withEquality eq).intersect
            dfltEq lb none).toArray la))
      ∧ (∀ x, ¬(x ∈ (((Iterate.array (T := T)).withEquality eq).exclude
            dfltEq lb none).toArray la
          ∧ x ∈ (((Iterate.array (T := T)).withEquality eq).intersect
            dfltEq lb none).toArray la)) := by
  intro T eq dfltEq la lb
  rw [exclude_array_filter, intersect_array_filter]
  constructor
  · intro x
    by_cases hq : lb.any (fun o => eq o x)
    · simp [List.mem_filter, hq]
    · simp [List.mem_filter, hq]
  · intro x hx
    rcases hx with ⟨h1, h2⟩
    rw [List.mem_filter] at h1 h2
    rcases h1 with ⟨_, hq1⟩
    rcases h2 with ⟨_, hq2⟩
    rw [hq2] at hq1
    simp at hq1

/-- Claim C9, counterexample: a transform view does not carry the
comparator of its parent: the source constructs its cursor without
the parent argument, so a parent with a configured comparator yields
a derived cursor with none. -/
theorem c9_counterexample :
    (((Iterate.array (T := Int)).withComparator (fun a b => a - b)).transform
        (fun v _ => some v) none).comparator.isSome = false
    ∧ (((Iterate.array (T := Int)).withComparator
        (fun a b => a - b)).comparator.isSome = true) :=
  ⟨rfl, rfl⟩

/-- Claim C9, amended: the derived cursors of where, not, take (with
a positive amount), skip, the threshold views, sorted, shuffle,
reverse, readonly and values carry the comparator and equality of the
parent as copied at construction (a value snapshot, so later parent
reconfiguration cannot reach them), while transform and keys
construct their cursor without the parent and start with no
comparator or equality. -/
theorem c9_amended :
    (∀ (T K S : Type) (p : Iterate T K S) (w : T → K → Bool),
      (p.where w).comparator = p.comparator ∧ (p.where w).equality = p.equality)
    ∧ (∀ (T K S : Type) (p : Iterate T K S) (w : T → K → Bool),
      (p.not w).comparator = p.comparator ∧ (p.not w).equality = p.equality)
    ∧ (∀ (T K S : Type) (p : Iterate T K S) (n : Int), 0 < n →
      (p.take n).comparator = p.comparator ∧ (p.take n).equality = p.equality)
    ∧ (∀ (T K S : Type) (p : Iterate T K S) (n : Int),
      (p.skip n).comparator = p.comparator ∧ (p.skip n).equality = p.equality)
    ∧ (∀ (T K S : Type) (p : Iterate T K S) (dflt : CmpFn T) (th : T)
        (co : Option (CmpFn T)),
      ((p.gt dflt th co).comparator = p.comparator
          ∧ (p.gt dflt th co).equality = p.equality)
        ∧ ((p.gte dflt th co).comparator = p.comparator
          ∧ (p.gte dflt th co).equality = p.equality)
        ∧ ((p.lt dflt th co).comparator = p.comparator
          ∧ (p.lt dflt th co).equality = p.equality)
        ∧ ((p.lte dflt th co).comparator = p.comparator
          ∧ (p.lte dflt th co).equality = p.equality))
    ∧ (∀ (T K S : Type) [DecidableEq T] (p : Iterate T K S) (dflt : CmpFn T)
        (co : Option (CmpFn T)),
      (p.sorted dflt co).comparator = p.comparator
        ∧ (p.sorted dflt co).equality = p.equality)
    ∧ (∀ (T K S : Type) [DecidableEq T] (p : Iterate T K S) (rand : Nat → Nat)
        (passes : Nat),
      (p.shuffle rand passes).comparator = p.comparator
        ∧ (p.shuffle rand passes).equality = p.equality)
    ∧ (∀ (T K S : Type) [DecidableEq T] (p : Iterate T K S),
      (p.reverse).comparator = p.comparator ∧ (p.reverse).equality = p.equality)
    ∧ (∀ (T K S : Type) (p : Iterate T K S),
      (p.readonly).comparator = p.comparator ∧ (p.readonly).equality = p.equality)
    ∧ (∀ (T K S : Type) (p : Iterate T K S),
      (p.values).comparator = p.comparator ∧ (p.values).equality = p.equality)
    ∧ (∀ (T K S W : Type) (p : Iterate T K S) (f : T → K → Option W)
        (u : Option (W → W → T → K → T)),
      (p.transform f u).comparator = none ∧ (p.transform f u).equality = none)
    ∧ (∀ (T K S : Type) (p : Iterate T K S),
      (p.keys).comparator = none ∧ (p.keys).equality = none) := by
  refine ⟨?_, ?_, ?_, ?_, ?_, ?_, ?_, ?_, ?_, ?_, ?_, ?_⟩
  · intro T K S p w; exact ⟨rfl, rfl⟩
  · intro T K S p w; exact ⟨rfl, rfl⟩
  · intro T K S p n h
    simp only [Iterate.take, if_neg (show ¬(n ≤ 0) by omega)]
    exact ⟨rfl, rfl⟩
  · intro T K S p n; exact ⟨rfl, rfl⟩
  · intro T K S p dflt th co
    exact ⟨⟨rfl, rfl⟩, ⟨rfl, rfl⟩, ⟨rfl, rfl⟩, ⟨rfl, rfl⟩⟩
  · intro T K S inst p dflt co; exact ⟨rfl, rfl⟩
  · intro T K S inst p rand passes; exact ⟨rfl, rfl⟩
  · intro T K S inst p; exact ⟨rfl, rfl⟩
  · intro T K S p; exact ⟨rfl, rfl⟩
  · intro T K S p; exact ⟨rfl, rfl⟩
  · intro T K S W p f u; exact ⟨rfl, rfl⟩
  · intro T K S p; exact ⟨rfl, rfl⟩

/-- Witness for C9 amended at the take view with amount 1 over a
parent with a configured comparator. -/
theorem c9_amended_witness :
    (((Iterate.array (T := Int)).withComparator (fun a b => a - b)).take 1).comparator
      = ((Iterate.array (T := Int)).withComparator (fun a b => a - b)).comparator :=
  (c9_amended.2.2.1 Int Nat (List Int)
    ((Iterate.array (T := Int)).withComparator (fun a b => a - b)) 1
    (by decide)).1

/-- Claim C10: a REMOVE requested for the starting node of a depth
first traversal, which has no parent cursor, is silently ignored even
in strict mode and the traversal proceeds into the children of the
root (sample run visits 1, 2, 3 and leaves the tree unchanged);
moreover a depth first traversal never raises the strict remove
error: with the replace hook present it never raises at all, for any
callback and either strictness. -/
theorem c10_dfs_root_remove :
    dfsRoot true true (logCb (removeValueCb 1))
        (TreeNode.mk 1 [TreeNode.mk 2 [], TreeNode.mk 3 []]) ([], ())
      = Except.ok (([1, 2, 3], ()),
          TreeNode.mk 1 [TreeNode.mk 2 [], TreeNode.mk 3 []])
    ∧ (∀ (T σ : Type) (strict : Bool) (cb : CbFn T T σ) (t : TreeNode T) (s : σ),
      exceptOk (dfsRoot strict true cb t s) = true) := by
  constructor
  · simp [dfsRoot, dfsNode, dfsChildren, logCb, removeValueCb, Except.map]
  · intro T σ strict cb t s
    exact dfsRoot_no_error strict cb t s

end Iteratez
